import Mathlib

/-!
# Z85 codec: shallow embedding and verification

This file embeds the Z85 encoder/decoder of `z85.go` and the error model of
`errors.go` into Lean and proves the specified properties.

Modelling conventions:
* Go byte slices and Go strings (which are byte sequences) are `List Nat`
  with every element below 256.
* Go's `uint32` arithmetic is `Nat` arithmetic reduced `% 2 ^ 32` at each
  operation that can overflow.
* The fallible functions return `Except Z85Error _`; returning
  `(nil, err)` in Go corresponds to `.error err` (no partial output).
-/

namespace Z85

/-- `codeSize` from z85.go: the number of encoding characters. -/
def codeSize : Nat := 85

/-- `byteChunkSize` from z85.go: the size of a byte chunk to be processed. -/
def byteChunkSize : Nat := 4

/-- `byteChunkMask` from z85.go: the mask to check a byte chunk index. -/
def byteChunkMask : Nat := byteChunkSize - 1

/-- `encodedChunkSize` from z85.go: the size of an encoded chunk. -/
def encodedChunkSize : Nat := 5

/-- `decodeOffset` from z85.go: the ASCII value of the encoding character
with the least value, namely the exclamation mark (code 33). -/
def decodeOffset : Nat := 33

/-- `ivEc` from z85.go: the encoding value for an invalid character. -/
def ivEc : Nat := 0xff

/-- `encodeTable` from z85.go, the 85-character Z85 alphabet
(the two braces are written with escapes). -/
def encodeTable : String :=
  "0123456789abcdefghijklmnopqrstuvwxyzABCDEFGHIJKLMNOPQRSTUVWXYZ.-:+=^!/*?&<>()[]\x7b\x7d@%$#"

/-- The alphabet as a list of byte values (Go indexes the string by byte). -/
def encodeTableBytes : List Nat := encodeTable.toList.map Char.toNat

/-- `decodeTable` from z85.go: the decoding table with an offset of
`decodeOffset`. -/
def decodeTable : List Nat :=
  [0x44, ivEc, 0x54, 0x53, 0x52, 0x48, ivEc,
   0x4b, 0x4c, 0x46, 0x41, ivEc, 0x3f, 0x3e, 0x45,
   0x00, 0x01, 0x02, 0x03, 0x04, 0x05, 0x06, 0x07,
   0x08, 0x09, 0x40, ivEc, 0x49, 0x42, 0x4a, 0x47,
   0x51, 0x24, 0x25, 0x26, 0x27, 0x28, 0x29, 0x2a,
   0x2b, 0x2c, 0x2d, 0x2e, 0x2f, 0x30, 0x31, 0x32,
   0x33, 0x34, 0x35, 0x36, 0x37, 0x38, 0x39, 0x3a,
   0x3b, 0x3c, 0x3d, 0x4d, ivEc, 0x4e, 0x43, ivEc,
   ivEc, 0x0a, 0x0b, 0x0c, 0x0d, 0x0e, 0x0f, 0x10,
   0x11, 0x12, 0x13, 0x14, 0x15, 0x16, 0x17, 0x18,
   0x19, 0x1a, 0x1b, 0x1c, 0x1d, 0x1e, 0x1f, 0x20,
   0x21, 0x22, 0x23, 0x4f, ivEc, 0x50]

/-- `decodeMaxValue` from z85.go: the maximum acceptable byte value for
decoding, `len(decodeTable) + decodeOffset - 1`. -/
def decodeMaxValue : Nat := decodeTable.length + decodeOffset - 1

/-- The error model of errors.go: `ErrInvalidLength` carries the required
divisor, `ErrInvalidByte` carries the position and the raw byte value. -/
inductive Z85Error where
  | ErrInvalidLength (divisor : Nat)
  | ErrInvalidByte (position : Nat) (value : Nat)
deriving DecidableEq, Repr

/-- `IsErrInvalidLength` from errors.go: reports whether the supplied error
is the `ErrInvalidLength` error. -/
def IsErrInvalidLength : Z85Error → Bool
  | .ErrInvalidLength _ => true
  | _ => false

/-- `IsErrInvalidByte` from errors.go: reports whether the supplied error
is the `ErrInvalidByte` error. -/
def IsErrInvalidByte : Z85Error → Bool
  | .ErrInvalidByte _ _ => true
  | _ => false

/-- `binary.BigEndian.Uint32` applied to a 4-byte chunk `b0 b1 b2 b3`
(each below 256 for actual bytes). -/
def bigEndianUint32 (b0 b1 b2 b3 : Nat) : Nat :=
  b0 * 2 ^ 24 + b1 * 2 ^ 16 + b2 * 2 ^ 8 + b3

/-- `binary.BigEndian.PutUint32`: the 4 big-endian bytes of a 32-bit value. -/
def putUint32BigEndian (v : Nat) : List Nat :=
  [v / 2 ^ 24 % 256, v / 2 ^ 16 % 256, v / 2 ^ 8 % 256, v % 256]

/-- The encoder's inner loop (z85.go, `for i := byteChunkSize; i >= 0; i--`):
the loop stores `value % codeSize` (written in the source as
`value - valueDiv*codeSize`) into position `i` and replaces `value` by
`value / codeSize`, for `i = 4` down to `0`; position `i` therefore holds
the digit computed at step `4 - i`.  `encodeDigits value n` is the list of
the `n` digits so produced, in output order (most-significant first). -/
def encodeDigits : Nat → Nat → List Nat
  | _, 0 => []
  | value, n + 1 => encodeDigits (value / codeSize) n ++ [value % codeSize]

/-- One encoded chunk: the 5 digits of `value`, each turned into its
alphabet character `encodeTable[digit]`. -/
def encodeChunk (value : Nat) : List Nat :=
  (encodeDigits value encodedChunkSize).map (fun d => encodeTableBytes.getD d 0)

/-- The encoder's chunk loop (z85.go): each consecutive 4-byte group is read
as a big-endian 32-bit value and encoded into 5 characters. -/
def encodeChunks : List Nat → List Nat
  | b0 :: b1 :: b2 :: b3 :: rest =>
      encodeChunk (bigEndianUint32 b0 b1 b2 b3) ++ encodeChunks rest
  | _ => []

/-- `Encode` from z85.go.  The length test in the source is
`(sourceLen & byteChunkMask) != 0`; since `byteChunkMask = 3` this is the
bitwise-and test for divisibility by 4, modelled with `&&&` on `Nat`. -/
def Encode (source : List Nat) : Except Z85Error (List Nat) :=
  if source.length &&& byteChunkMask ≠ 0 then
    .error (.ErrInvalidLength byteChunkSize)
  else
    .ok (encodeChunks source)

/-- Per-character validation and lookup of the decoder (z85.go):
`none` when `charByte < decodeOffset || charByte > decodeMaxValue`, and
`none` when `decodeTable[charByte-decodeOffset] == ivEc`; otherwise the
decoded value.  Both `none` outcomes make `Decode` fail with
`ErrInvalidByte` at the current position, as in the source. -/
def decodeCharValue (c : Nat) : Option Nat :=
  if c < decodeOffset ∨ decodeMaxValue < c then none
  else
    let encodedValue := decodeTable.getD (c - decodeOffset) 0
    if encodedValue = ivEc then none else some encodedValue

/-- The decoder's inner loop (z85.go, `for i := uint(0); i < encodedChunkSize; i++`):
walks the chunk's characters with loop index `i`, failing with
`ErrInvalidByte(chunkIndex*encodedChunkSize + i, charByte)` at the first
invalid character, and otherwise accumulating
`value = value*codeSize + encodedValue` in a `uint32` (hence `% 2 ^ 32`). -/
def decodeChunkGo (chunkIndex : Nat) : List Nat → Nat → Nat → Except Z85Error Nat
  | [], _, value => .ok value
  | c :: rest, i, value =>
    match decodeCharValue c with
    | none => .error (.ErrInvalidByte (chunkIndex * encodedChunkSize + i) c)
    | some encodedValue =>
        decodeChunkGo chunkIndex rest (i + 1)
          ((value * codeSize + encodedValue) % 2 ^ 32)

/-- The decoder's chunk loop (z85.go): each consecutive 5-character group is
accumulated into a 32-bit value which is written out as 4 big-endian bytes;
the first failing chunk aborts the whole call with its error (the Go code
returns `nil, err`, i.e. no partial output). -/
def decodeChunks (chunkIndex : Nat) : List Nat → Except Z85Error (List Nat)
  | c0 :: c1 :: c2 :: c3 :: c4 :: rest =>
    match decodeChunkGo chunkIndex [c0, c1, c2, c3, c4] 0 0 with
    | .error e => .error e
    | .ok value =>
      match decodeChunks (chunkIndex + 1) rest with
      | .error e => .error e
      | .ok restBytes => .ok (putUint32BigEndian value ++ restBytes)
  | _ => .ok []

/-- `Decode` from z85.go.  The length test in the source is
`sourceLen != chunkCount*encodedChunkSize` with
`chunkCount = sourceLen / encodedChunkSize`. -/
def Decode (source : List Nat) : Except Z85Error (List Nat) :=
  let chunkCount := source.length / encodedChunkSize
  if source.length ≠ chunkCount * encodedChunkSize then
    .error (.ErrInvalidLength encodedChunkSize)
  else
    decodeChunks 0 source

/-- The bytes of a Go string literal (all literals used here are ASCII,
one byte per character). -/
def stringBytes (s : String) : List Nat := s.toList.map Char.toNat

/-- Stated from the specification's words, for comparison with the code:
character position `j` of an encoded chunk (`j = 0..4`) carries weight
`85 ^ (4 - j)`, i.e. it is the alphabet character of the base-85 digit
`v / 85 ^ (4 - j) % 85` of the chunk value `v`. -/
def encodeChunkSpec (v : Nat) : List Nat :=
  [encodeTableBytes.getD (v / 85 ^ 4 % 85) 0,
   encodeTableBytes.getD (v / 85 ^ 3 % 85) 0,
   encodeTableBytes.getD (v / 85 ^ 2 % 85) 0,
   encodeTableBytes.getD (v / 85 ^ 1 % 85) 0,
   encodeTableBytes.getD (v % 85) 0]

/-- Stated from the specification's words: the input split into consecutive
4-byte groups, each read as a big-endian 32-bit integer and rendered by
`encodeChunkSpec`. -/
def encodeSpec : List Nat → List Nat
  | b0 :: b1 :: b2 :: b3 :: rest =>
      encodeChunkSpec (bigEndianUint32 b0 b1 b2 b3) ++ encodeSpec rest
  | _ => []

/-- The decoder's per-character validity test, as a Boolean. -/
def invalidChar (c : Nat) : Bool := (decodeCharValue c).isNone

/-! ## Helper lemmas -/

/-- The length test of `Encode`: masking with `byteChunkMask = 3` is
reduction modulo 4. -/
theorem land_three_eq_mod_four (n : Nat) : n &&& 3 = n % 4 := by
  have h := Nat.and_pow_two_sub_one_eq_mod n 2
  norm_num at h
  omega

/-- The chunk mask evaluates to 3. -/
theorem byteChunkMask_eq : byteChunkMask = 3 := rfl

set_option maxRecDepth 100000 in
/-- Decoding inverts the alphabet: looking up the character of any digit
`d < 85` in the decode table yields `d` back. -/
theorem tableRoundTrip : ∀ d < 85, decodeCharValue (encodeTableBytes.getD d 0) = some d := by
  decide

/-- `encodeDigits` produces exactly `n` digits. -/
theorem encodeDigits_length : ∀ (n v : Nat), (encodeDigits v n).length = n
  | 0, _ => rfl
  | n + 1, v => by
    simp [encodeDigits, encodeDigits_length n]

/-- Every digit produced by `encodeDigits` is below 85. -/
theorem encodeDigits_lt : ∀ (n v : Nat), ∀ d ∈ encodeDigits v n, d < 85
  | 0, _ => by simp [encodeDigits]
  | n + 1, v => by
    simp only [encodeDigits, codeSize, List.mem_append, List.mem_singleton]
    rintro d (hd | rfl)
    · exact encodeDigits_lt n _ d hd
    · exact Nat.mod_lt _ (by norm_num)

/-- Recombining the digits of `encodeDigits v n` by Horner evaluation
recovers `v`, provided `v` fits in `n` base-85 digits. -/
theorem foldl_encodeDigits : ∀ (n v acc : Nat), v < 85 ^ n →
    List.foldl (fun a d => a * 85 + d) acc (encodeDigits v n) = acc * 85 ^ n + v
  | 0, v, acc, hv => by
    simp only [encodeDigits, List.foldl_nil, pow_zero]
    omega
  | n + 1, v, acc, hv => by
    have hdiv : v / 85 < 85 ^ n := by
      rw [Nat.div_lt_iff_lt_mul (by norm_num)]
      calc v < 85 ^ (n + 1) := hv
        _ = 85 ^ n * 85 := by ring
    simp only [encodeDigits, codeSize, List.foldl_append, List.foldl_cons, List.foldl_nil]
    rw [foldl_encodeDigits n (v / 85) acc hdiv, pow_succ]
    have hm := Nat.div_add_mod v 85
    calc (acc * 85 ^ n + v / 85) * 85 + v % 85
        = acc * (85 ^ n * 85) + (85 * (v / 85) + v % 85) := by ring
      _ = acc * (85 ^ n * 85) + v := by rw [hm]

/-- Horner evaluation with reduction `% m` at every step agrees with plain
Horner evaluation reduced `% m` at the end. -/
theorem foldl_mulAdd_mod : ∀ (ds : List Nat) (a b m : Nat), a = b % m →
    List.foldl (fun x d => (x * 85 + d) % m) a ds =
      (List.foldl (fun x d => x * 85 + d) b ds) % m
  | [], a, b, m, h => by simpa using h
  | d :: ds, a, b, m, h => by
    simp only [List.foldl_cons]
    apply foldl_mulAdd_mod ds
    subst h
    exact ((Nat.mod_modEq b m).mul_right 85).add_right d

/-- Running the decoder's inner loop over the alphabet characters of a digit
list accumulates exactly the Horner value of the digits (with the loop's
32-bit reduction at every step). -/
theorem decodeChunkGo_map : ∀ (ds : List Nat) (k i acc : Nat), (∀ d ∈ ds, d < 85) →
    decodeChunkGo k (ds.map fun d => encodeTableBytes.getD d 0) i acc =
      .ok (List.foldl (fun a d => (a * 85 + d) % 2 ^ 32) acc ds)
  | [], _, _, _, _ => rfl
  | d :: ds, k, i, acc, h => by
    have hd : d < 85 := h d (by simp)
    simp only [List.map_cons, decodeChunkGo, tableRoundTrip d hd, codeSize, List.foldl_cons]
    exact decodeChunkGo_map ds k (i + 1) _ (fun x hx => h x (by simp [hx]))

/-- The decoder's inner loop inverts `encodeChunk` on every 32-bit value. -/
theorem decodeChunkGo_encodeChunk (k v : Nat) (hv : v < 2 ^ 32) :
    decodeChunkGo k (encodeChunk v) 0 0 = .ok v := by
  have h85 : v < 85 ^ 5 := lt_of_lt_of_le hv (by norm_num)
  rw [encodeChunk]
  rw [decodeChunkGo_map _ k 0 0 (encodeDigits_lt _ v)]
  rw [foldl_mulAdd_mod _ 0 0 (2 ^ 32) (by simp)]
  rw [show encodedChunkSize = 5 from rfl, foldl_encodeDigits 5 v 0 h85]
  have hm : (0 * 85 ^ 5 + v) % 2 ^ 32 = v := by
    rw [Nat.zero_mul, Nat.zero_add]
    exact Nat.mod_eq_of_lt hv
  rw [hm]

/-- Writing back the big-endian value of 4 bytes reproduces the bytes. -/
theorem putUint32_bigEndianUint32 (b0 b1 b2 b3 : Nat)
    (h0 : b0 < 256) (h1 : b1 < 256) (h2 : b2 < 256) (h3 : b3 < 256) :
    putUint32BigEndian (bigEndianUint32 b0 b1 b2 b3) = [b0, b1, b2, b3] := by
  simp only [putUint32BigEndian, bigEndianUint32, List.cons.injEq, and_true]
  norm_num
  omega

/-- The big-endian value of 4 bytes fits in 32 bits. -/
theorem bigEndianUint32_lt (b0 b1 b2 b3 : Nat)
    (h0 : b0 < 256) (h1 : b1 < 256) (h2 : b2 < 256) (h3 : b3 < 256) :
    bigEndianUint32 b0 b1 b2 b3 < 2 ^ 32 := by
  simp only [bigEndianUint32]
  norm_num
  omega

/-- The 5 characters of an encoded chunk, written out. -/
theorem encodeChunk_eq (v : Nat) : encodeChunk v =
    [encodeTableBytes.getD (v / 85 / 85 / 85 / 85 % 85) 0,
     encodeTableBytes.getD (v / 85 / 85 / 85 % 85) 0,
     encodeTableBytes.getD (v / 85 / 85 % 85) 0,
     encodeTableBytes.getD (v / 85 % 85) 0,
     encodeTableBytes.getD (v % 85) 0] := rfl

/-- An encoded chunk has exactly 5 characters. -/
theorem encodeChunk_length (v : Nat) : (encodeChunk v).length = 5 := by
  rw [encodeChunk_eq]
  rfl

/-- Decoding the encoder's chunk stream gives back the original bytes,
for any starting chunk index. -/
theorem decodeChunks_encodeChunks : ∀ (b : List Nat), (∀ x ∈ b, x < 256) →
    b.length % 4 = 0 → ∀ k, decodeChunks k (encodeChunks b) = .ok b
  | [], _, _, _ => rfl
  | [_], _, h, _ => by simp at h
  | [_, _], _, h, _ => by simp at h
  | [_, _, _], _, h, _ => by simp at h
  | b0 :: b1 :: b2 :: b3 :: rest, hb, hlen, k => by
    have hrest : rest.length % 4 = 0 := by
      simp only [List.length_cons] at hlen
      omega
    have hbrest : ∀ x ∈ rest, x < 256 := fun x hx => hb x (by simp [hx])
    have hv : bigEndianUint32 b0 b1 b2 b3 < 2 ^ 32 :=
      bigEndianUint32_lt b0 b1 b2 b3 (hb _ (by simp)) (hb _ (by simp))
        (hb _ (by simp)) (hb _ (by simp))
    have hgo : decodeChunkGo k
        [encodeTableBytes.getD (bigEndianUint32 b0 b1 b2 b3 / 85 / 85 / 85 / 85 % 85) 0,
         encodeTableBytes.getD (bigEndianUint32 b0 b1 b2 b3 / 85 / 85 / 85 % 85) 0,
         encodeTableBytes.getD (bigEndianUint32 b0 b1 b2 b3 / 85 / 85 % 85) 0,
         encodeTableBytes.getD (bigEndianUint32 b0 b1 b2 b3 / 85 % 85) 0,
         encodeTableBytes.getD (bigEndianUint32 b0 b1 b2 b3 % 85) 0] 0 0 =
        .ok (bigEndianUint32 b0 b1 b2 b3) := by
      rw [← encodeChunk_eq]
      exact decodeChunkGo_encodeChunk k _ hv
    show decodeChunks k (encodeChunk (bigEndianUint32 b0 b1 b2 b3) ++ encodeChunks rest) = _
    rw [encodeChunk_eq]
    simp only [List.cons_append, List.nil_append, List.append_eq, decodeChunks, hgo]
    rw [decodeChunks_encodeChunks rest hbrest hrest (k + 1)]
    rw [putUint32_bigEndianUint32 b0 b1 b2 b3 (hb _ (by simp)) (hb _ (by simp))
      (hb _ (by simp)) (hb _ (by simp))]
    rfl

/-- The decoder's inner loop only ever fails with `ErrInvalidByte`. -/
theorem decodeChunkGo_error_shape : ∀ (cs : List Nat) (k i acc : Nat) (e : Z85Error),
    decodeChunkGo k cs i acc = .error e → ∃ p c, e = .ErrInvalidByte p c
  | [], _, _, _, _, h => by simp [decodeChunkGo] at h
  | c :: cs, k, i, acc, e, h => by
    cases hv : decodeCharValue c with
    | none =>
      simp only [decodeChunkGo, hv, Except.error.injEq] at h
      exact ⟨_, _, h.symm⟩
    | some d =>
      simp only [decodeChunkGo, hv] at h
      exact decodeChunkGo_error_shape cs k (i + 1) _ e h

/-- The decoder's chunk loop only ever fails with `ErrInvalidByte`. -/
theorem decodeChunks_error_shape : ∀ (k : Nat) (s : List Nat) (e : Z85Error),
    decodeChunks k s = .error e → ∃ p c, e = .ErrInvalidByte p c
  | k, c0 :: c1 :: c2 :: c3 :: c4 :: rest, e, h => by
    simp only [decodeChunks] at h
    cases hg : decodeChunkGo k [c0, c1, c2, c3, c4] 0 0 with
    | error e2 =>
      rw [hg] at h
      simp only [Except.error.injEq] at h
      subst h
      exact decodeChunkGo_error_shape _ k 0 0 _ hg
    | ok v =>
      rw [hg] at h
      cases hr : decodeChunks (k + 1) rest with
      | error e2 =>
        rw [hr] at h
        simp only [Except.error.injEq] at h
        subst h
        exact decodeChunks_error_shape (k + 1) rest _ hr
      | ok r =>
        rw [hr] at h
        simp at h
  | _, [], _, h => by simp [decodeChunks] at h
  | _, [_], _, h => by simp [decodeChunks] at h
  | _, [_, _], _, h => by simp [decodeChunks] at h
  | _, [_, _, _], _, h => by simp [decodeChunks] at h
  | _, [_, _, _, _], _, h => by simp [decodeChunks] at h

/-- Length of the encoder's output stream: 5 characters per 4 input bytes. -/
theorem encodeChunks_length : ∀ (b : List Nat), b.length % 4 = 0 →
    (encodeChunks b).length = b.length / 4 * 5
  | [], _ => rfl
  | [_], h => by simp at h
  | [_, _], h => by simp at h
  | [_, _, _], h => by simp at h
  | b0 :: b1 :: b2 :: b3 :: rest, h => by
    have hrest : rest.length % 4 = 0 := by
      simp only [List.length_cons] at h
      omega
    simp only [encodeChunks, List.length_append, encodeChunk_length,
      encodeChunks_length rest hrest, List.length_cons]
    omega

/-- The 4 bytes written per decoded chunk. -/
theorem putUint32_length (v : Nat) : (putUint32BigEndian v).length = 4 := rfl

/-- Length of the decoder's output: 4 bytes per 5 input characters. -/
theorem decodeChunks_ok_length : ∀ (k : Nat) (s r : List Nat),
    decodeChunks k s = .ok r → r.length = s.length / 5 * 4
  | k, c0 :: c1 :: c2 :: c3 :: c4 :: rest, r, h => by
    simp only [decodeChunks] at h
    cases hg : decodeChunkGo k [c0, c1, c2, c3, c4] 0 0 with
    | error e =>
      rw [hg] at h
      simp at h
    | ok v =>
      rw [hg] at h
      cases hr : decodeChunks (k + 1) rest with
      | error e =>
        rw [hr] at h
        simp at h
      | ok rb =>
        rw [hr] at h
        simp only [Except.ok.injEq] at h
        subst h
        have hlen := decodeChunks_ok_length (k + 1) rest rb hr
        simp only [List.length_append, putUint32_length, hlen, List.length_cons]
        omega
  | _, [], r, h => by
    simp only [decodeChunks, Except.ok.injEq] at h
    subst h
    rfl
  | _, [_], r, h => by
    simp only [decodeChunks, Except.ok.injEq] at h
    subst h
    simp
  | _, [_, _], r, h => by
    simp only [decodeChunks, Except.ok.injEq] at h
    subst h
    simp
  | _, [_, _, _], r, h => by
    simp only [decodeChunks, Except.ok.injEq] at h
    subst h
    simp
  | _, [_, _, _, _], r, h => by
    simp only [decodeChunks, Except.ok.injEq] at h
    subst h
    simp

/-- On a chunk of valid characters the inner loop succeeds. -/
theorem decodeChunkGo_ok_of_valid : ∀ (cs : List Nat) (k i acc : Nat),
    (∀ c ∈ cs, decodeCharValue c ≠ none) → ∃ v, decodeChunkGo k cs i acc = .ok v
  | [], _, _, acc, _ => ⟨acc, rfl⟩
  | c :: cs, k, i, acc, h => by
    cases hv : decodeCharValue c with
    | none => exact absurd hv (h c (by simp))
    | some d =>
      simp only [decodeChunkGo, hv]
      exact decodeChunkGo_ok_of_valid cs k (i + 1) _ (fun x hx => h x (by simp [hx]))

/-- The chunk loop fails at the first invalid character of the input,
reporting its absolute position `chunkIndex * 5 + offset`, which equals the
index of that character in the whole remaining input. -/
theorem decodeChunks_first_invalid : ∀ (s : List Nat) (k : Nat), s.length % 5 = 0 →
    (∃ c ∈ s, decodeCharValue c = none) →
    decodeChunks k s =
      .error (.ErrInvalidByte (k * 5 + s.findIdx invalidChar)
        (s.getD (s.findIdx invalidChar) 0))
  | [], _, _, h => by simp at h
  | [_], _, hlen, _ => by simp at hlen
  | [_, _], _, hlen, _ => by simp at hlen
  | [_, _, _], _, hlen, _ => by simp at hlen
  | [_, _, _, _], _, hlen, _ => by simp at hlen
  | c0 :: c1 :: c2 :: c3 :: c4 :: rest, k, hlen, h => by
    cases hv0 : decodeCharValue c0 with
    | none =>
      simp only [decodeChunks, decodeChunkGo, hv0, List.findIdx_cons, invalidChar,
        Option.isNone_none, cond_true, List.getD_cons_zero, encodedChunkSize, Nat.add_zero]
    | some d0 =>
    cases hv1 : decodeCharValue c1 with
    | none =>
      simp only [decodeChunks, decodeChunkGo, hv0, hv1, List.findIdx_cons, invalidChar,
        Option.isNone_none, Option.isNone_some, cond_true, cond_false,
        List.getD_cons_zero, List.getD_cons_succ, encodedChunkSize, Nat.add_zero, Nat.zero_add]
    | some d1 =>
    cases hv2 : decodeCharValue c2 with
    | none =>
      simp only [decodeChunks, decodeChunkGo, hv0, hv1, hv2, List.findIdx_cons, invalidChar,
        Option.isNone_none, Option.isNone_some, cond_true, cond_false,
        List.getD_cons_zero, List.getD_cons_succ, encodedChunkSize, Nat.add_zero, Nat.zero_add]
    | some d2 =>
    cases hv3 : decodeCharValue c3 with
    | none =>
      simp only [decodeChunks, decodeChunkGo, hv0, hv1, hv2, hv3, List.findIdx_cons, invalidChar,
        Option.isNone_none, Option.isNone_some, cond_true, cond_false,
        List.getD_cons_zero, List.getD_cons_succ, encodedChunkSize, Nat.add_zero, Nat.zero_add]
    | some d3 =>
    cases hv4 : decodeCharValue c4 with
    | none =>
      simp only [decodeChunks, decodeChunkGo, hv0, hv1, hv2, hv3, hv4, List.findIdx_cons,
        invalidChar, Option.isNone_none, Option.isNone_some, cond_true, cond_false,
        List.getD_cons_zero, List.getD_cons_succ, encodedChunkSize, Nat.add_zero, Nat.zero_add]
    | some d4 =>
      have hex : ∃ c ∈ rest, decodeCharValue c = none := by
        rcases h with ⟨x, hx, hnone⟩
        simp only [List.mem_cons] at hx
        rcases hx with rfl | rfl | rfl | rfl | rfl | hmem
        · rw [hv0] at hnone; simp at hnone
        · rw [hv1] at hnone; simp at hnone
        · rw [hv2] at hnone; simp at hnone
        · rw [hv3] at hnone; simp at hnone
        · rw [hv4] at hnone; simp at hnone
        · exact ⟨x, hmem, hnone⟩
      have hrest : rest.length % 5 = 0 := by
        simp only [List.length_cons] at hlen
        omega
      have hrec := decodeChunks_first_invalid rest (k + 1) hrest hex
      simp only [decodeChunks, decodeChunkGo, hv0, hv1, hv2, hv3, hv4, hrec,
        List.findIdx_cons, invalidChar, Option.isNone_some, cond_false,
        List.getD_cons_succ, Except.error.injEq, Z85Error.ErrInvalidByte.injEq]
      exact ⟨by omega, trivial⟩

/-- `encodeChunk` agrees with the specification's weight-based description
of one chunk. -/
theorem encodeChunk_eq_spec (v : Nat) : encodeChunk v = encodeChunkSpec v := by
  rw [encodeChunk_eq, encodeChunkSpec]
  norm_num [Nat.div_div_eq_div_mul]

/-- The encoder's chunk stream agrees with the specification's description. -/
theorem encodeChunks_eq_spec : ∀ (b : List Nat), encodeChunks b = encodeSpec b
  | [] => rfl
  | [_] => rfl
  | [_, _] => rfl
  | [_, _, _] => rfl
  | b0 :: b1 :: b2 :: b3 :: rest => by
    simp only [encodeChunks, encodeSpec, encodeChunk_eq_spec,
      encodeChunks_eq_spec rest]

/-! ## Claim theorems -/

/-- C1: for every byte sequence `b` whose length is a multiple of 4,
`Encode b` succeeds, and `Decode` applied to its result succeeds and
returns `b` (decode of encode is the identity on 4-aligned inputs). -/
theorem encode_decode_roundTrip (b : List Nat) (hb : ∀ x ∈ b, x < 256)
    (hlen : b.length % 4 = 0) :
    ∃ t, Encode b = .ok t ∧ Decode t = .ok b := by
  refine ⟨encodeChunks b, ?_, ?_⟩
  · have hcond : ¬(b.length &&& byteChunkMask ≠ 0) := by
      simp only [byteChunkMask_eq, land_three_eq_mod_four]
      omega
    simp only [Encode]
    rw [if_neg hcond]
  · have hlen5 := encodeChunks_length b hlen
    have hcond : ¬((encodeChunks b).length ≠ (encodeChunks b).length / 5 * 5) := by
      rw [hlen5]
      omega
    simp only [Decode, encodedChunkSize]
    rw [if_neg hcond]
    exact decodeChunks_encodeChunks b hb hlen 0

/-- Witness for C1 at a concrete 4-byte input. -/
theorem encode_decode_roundTrip_witness :
    ∃ t, Encode [1, 2, 3, 4] = .ok t ∧ Decode t = .ok [1, 2, 3, 4] :=
  encode_decode_roundTrip [1, 2, 3, 4] (by decide) (by decide)

/-- C2: on 4-aligned input, the encoder emits for each consecutive 4-byte
group, read as a big-endian 32-bit integer `v`, exactly the 5 characters of
the base-85 digits of `v` produced by repeated `mod 85` / `div 85`, placed
most-significant-first (`encodeSpec`), and the digits at character positions
0..4 carry weights `85^4, 85^3, 85^2, 85^1, 85^0`: they recombine to `v`. -/
theorem encode_big_endian_base85 (b : List Nat) (hlen : b.length % 4 = 0) :
    Encode b = .ok (encodeSpec b) ∧
    ∀ v < 2 ^ 32,
      v / 85 ^ 4 % 85 * 85 ^ 4 + v / 85 ^ 3 % 85 * 85 ^ 3 + v / 85 ^ 2 % 85 * 85 ^ 2 +
        v / 85 ^ 1 % 85 * 85 ^ 1 + v % 85 = v := by
  constructor
  · have hcond : ¬(b.length &&& byteChunkMask ≠ 0) := by
      simp only [byteChunkMask_eq, land_three_eq_mod_four]
      omega
    simp only [Encode]
    rw [if_neg hcond, encodeChunks_eq_spec]
  · intro v hv
    simp only [show (85 : Nat) ^ 4 = 52200625 from rfl, show (85 : Nat) ^ 3 = 614125 from rfl,
      show (85 : Nat) ^ 2 = 7225 from rfl, show (85 : Nat) ^ 1 = 85 from rfl,
      show (2 : Nat) ^ 32 = 4294967296 from rfl] at hv ⊢
    omega

/-- Witness for C2 at a concrete 4-byte input and chunk value. -/
theorem encode_big_endian_base85_witness :
    Encode [0, 0, 0, 1] = .ok (encodeSpec [0, 0, 0, 1]) ∧
      1 / 85 ^ 4 % 85 * 85 ^ 4 + 1 / 85 ^ 3 % 85 * 85 ^ 3 + 1 / 85 ^ 2 % 85 * 85 ^ 2 +
        1 / 85 ^ 1 % 85 * 85 ^ 1 + 1 % 85 = 1 :=
  ⟨(encode_big_endian_base85 [0, 0, 0, 1] (by decide)).1,
   (encode_big_endian_base85 [0, 0, 0, 1] (by decide)).2 1 (by norm_num)⟩

/-- C3: on any 5-aligned input containing an invalid character, `Decode`
fails with `ErrInvalidByte` carrying the absolute index of the first
invalid character in the whole input and that raw character value, and
returns no partial output. -/
theorem decode_first_invalid_byte (s : List Nat) (hlen : s.length % 5 = 0)
    (hinv : ∃ c ∈ s, decodeCharValue c = none) :
    Decode s = .error (.ErrInvalidByte (s.findIdx invalidChar)
      (s.getD (s.findIdx invalidChar) 0)) := by
  have hcond : ¬(s.length ≠ s.length / 5 * 5) := by omega
  simp only [Decode, encodedChunkSize]
  rw [if_neg hcond]
  have h := decodeChunks_first_invalid s 0 hlen hinv
  simpa using h

/-- Witness for C3: a tilde (code 126, outside the alphabet) at index 0. -/
theorem decode_first_invalid_byte_witness :
    Decode [126, 48, 48, 48, 48] =
      .error (.ErrInvalidByte ([126, 48, 48, 48, 48].findIdx invalidChar)
        ([126, 48, 48, 48, 48].getD ([126, 48, 48, 48, 48].findIdx invalidChar) 0)) :=
  decode_first_invalid_byte [126, 48, 48, 48, 48] (by decide) ⟨126, by decide, by decide⟩

/-- C4: `Encode` fails with `ErrInvalidLength 4` exactly when the input
length is not a multiple of 4, and `Decode` fails with `ErrInvalidLength 5`
exactly when the input length is not a multiple of 5; the failing call
produces no output. -/
theorem invalid_length_iff :
    (∀ b, Encode b = .error (.ErrInvalidLength 4) ↔ b.length % 4 ≠ 0) ∧
    (∀ s, Decode s = .error (.ErrInvalidLength 5) ↔ s.length % 5 ≠ 0) := by
  constructor
  · intro b
    simp only [Encode, byteChunkMask_eq, land_three_eq_mod_four]
    by_cases hb : b.length % 4 = 0
    · simp [hb, byteChunkSize]
    · simp [hb, byteChunkSize]
  · intro s
    simp only [Decode, encodedChunkSize]
    by_cases hs : s.length % 5 = 0
    · have hcond : ¬(s.length ≠ s.length / 5 * 5) := by omega
      rw [if_neg hcond]
      constructor
      · intro h
        obtain ⟨p, c, hpc⟩ := decodeChunks_error_shape 0 s _ h
        simp at hpc
      · intro h
        exact absurd hs h
    · have hcond : s.length ≠ s.length / 5 * 5 := by omega
      rw [if_pos hcond]
      simp [hs]

/-- Witness for C4 at concrete misaligned inputs. -/
theorem invalid_length_iff_witness :
    Encode [0] = .error (.ErrInvalidLength 4) ∧
      Decode [48] = .error (.ErrInvalidLength 5) :=
  ⟨(invalid_length_iff.1 [0]).mpr (by decide), (invalid_length_iff.2 [48]).mpr (by decide)⟩

/-- C5: when the call succeeds, `Encode` returns exactly
`len(input) / 4 * 5` characters and `Decode` exactly `len(input) / 5 * 4`
bytes. -/
theorem output_lengths :
    (∀ b t, Encode b = .ok t → t.length = b.length / 4 * 5) ∧
    (∀ s r, Decode s = .ok r → r.length = s.length / 5 * 4) := by
  constructor
  · intro b t h
    by_cases hb : b.length % 4 = 0
    · have hcond : ¬(b.length &&& byteChunkMask ≠ 0) := by
        simp only [byteChunkMask_eq, land_three_eq_mod_four]
        omega
      simp only [Encode] at h
      rw [if_neg hcond] at h
      simp only [Except.ok.injEq] at h
      subst h
      exact encodeChunks_length b hb
    · have hcond : b.length &&& byteChunkMask ≠ 0 := by
        simp only [byteChunkMask_eq, land_three_eq_mod_four]
        omega
      simp only [Encode] at h
      rw [if_pos hcond] at h
      simp at h
  · intro s r h
    by_cases hs : s.length % 5 = 0
    · have hcond : ¬(s.length ≠ s.length / 5 * 5) := by omega
      simp only [Decode, encodedChunkSize] at h
      rw [if_neg hcond] at h
      exact decodeChunks_ok_length 0 s r h
    · have hcond : s.length ≠ s.length / 5 * 5 := by omega
      simp only [Decode, encodedChunkSize] at h
      rw [if_pos hcond] at h
      simp at h

/-- Witness for C5 at concrete inputs. -/
theorem output_lengths_witness :
    ([48, 48, 48, 48, 48] : List Nat).length = ([0, 0, 0, 0] : List Nat).length / 4 * 5 ∧
    ([0, 0, 0, 0] : List Nat).length = ([48, 48, 48, 48, 48] : List Nat).length / 5 * 4 :=
  ⟨output_lengths.1 [0, 0, 0, 0] [48, 48, 48, 48, 48] (by rfl),
   output_lengths.2 [48, 48, 48, 48, 48] [0, 0, 0, 0] (by rfl)⟩

set_option maxRecDepth 1000000 in
/-- C6: the alphabet has exactly 85 entries, all distinct printable
non-whitespace ASCII characters, with entry 0 the digit zero (code 48) and
entry 84 the hash sign (code 35); the reverse table covers codes 33..125
(the exclamation mark through the closing brace), maps a covered code `c`
to `v < 85` exactly when the alphabet maps `v` to `c`, holds the sentinel
255 at every other covered position, and codes outside 33..125 are
out-of-range-invalid. -/
theorem table_invariants :
    encodeTableBytes.length = 85 ∧
    encodeTableBytes.Nodup ∧
    (∀ v < 85, 33 ≤ encodeTableBytes.getD v 0 ∧ encodeTableBytes.getD v 0 ≤ 126 ∧
      encodeTableBytes.getD v 0 ≠ 32) ∧
    encodeTableBytes.getD 0 0 = 48 ∧
    encodeTableBytes.getD 84 0 = 35 ∧
    decodeOffset = 33 ∧
    decodeMaxValue = 125 ∧
    (∀ c < 126, 33 ≤ c → ∀ v < 85,
      (decodeTable.getD (c - 33) 0 = v ↔ encodeTableBytes.getD v 0 = c)) ∧
    (∀ c < 126, 33 ≤ c → (∀ v < 85, encodeTableBytes.getD v 0 ≠ c) →
      decodeTable.getD (c - 33) 0 = 0xff) ∧
    (∀ c, c < 33 ∨ 125 < c → decodeCharValue c = none) := by
  refine ⟨by decide, by decide, by decide, by decide, by decide, by decide, by decide,
    by decide, by decide, ?_⟩
  intro c hc
  have hcond : c < decodeOffset ∨ decodeMaxValue < c := by
    rcases hc with h | h
    · exact Or.inl (by rw [show decodeOffset = 33 from rfl]; exact h)
    · exact Or.inr (by rw [show decodeMaxValue = 125 from rfl]; exact h)
  simp only [decodeCharValue]
  rw [if_pos hcond]

/-- Witness for C6: a code above the covered range is invalid. -/
theorem table_invariants_witness : decodeCharValue 200 = none :=
  table_invariants.2.2.2.2.2.2.2.2.2 200 (Or.inr (by decide))

/-- C7: encoding the empty byte sequence succeeds with the empty string,
and decoding the empty string succeeds with the empty byte sequence. -/
theorem encode_decode_empty : Encode [] = .ok [] ∧ Decode [] = .ok [] :=
  ⟨rfl, rfl⟩

/-- C8: the known vectors: the bytes 86 4f d2 6f b5 59 f7 5b encode to the
text HelloWorld, that text decodes back to the same bytes, and the text
khpb9ZWRsz decodes to the bytes 3e dc 70 d2 bf f1 01 1b. -/
theorem known_vectors :
    Encode [0x86, 0x4f, 0xd2, 0x6f, 0xb5, 0x59, 0xf7, 0x5b] =
      .ok (stringBytes "HelloWorld") ∧
    Decode (stringBytes "HelloWorld") =
      .ok [0x86, 0x4f, 0xd2, 0x6f, 0xb5, 0x59, 0xf7, 0x5b] ∧
    Decode (stringBytes "khpb9ZWRsz") =
      .ok [0x3e, 0xdc, 0x70, 0xd2, 0xbf, 0xf1, 0x01, 0x1b] :=
  ⟨rfl, rfl, rfl⟩

/-- C9: every error returned by `Encode` or `Decode` is classified by
exactly one of the two predicates: `IsErrInvalidLength` holds exactly on
`ErrInvalidLength`, `IsErrInvalidByte` exactly on `ErrInvalidByte`, and the
two never agree. -/
theorem error_classification (err : Z85Error)
    (hret : (∃ b, Encode b = .error err) ∨ (∃ s, Decode s = .error err)) :
    (IsErrInvalidLength err = true ↔ ∃ d, err = .ErrInvalidLength d) ∧
    (IsErrInvalidByte err = true ↔ ∃ p v, err = .ErrInvalidByte p v) ∧
    IsErrInvalidLength err ≠ IsErrInvalidByte err := by
  cases err with
  | ErrInvalidLength d => simp [IsErrInvalidLength, IsErrInvalidByte]
  | ErrInvalidByte p v => simp [IsErrInvalidLength, IsErrInvalidByte]

/-- Witness for C9 at the error returned by encoding one byte. -/
theorem error_classification_witness :
    IsErrInvalidLength (Z85Error.ErrInvalidLength 4) ≠
      IsErrInvalidByte (Z85Error.ErrInvalidLength 4) :=
  (error_classification (.ErrInvalidLength 4) (Or.inl ⟨[0], rfl⟩)).2.2

/-- C10: a 5-character group of valid alphabet characters whose base-85
value reaches `2 ^ 32` is not rejected: `Decode` accumulates in a 32-bit
unsigned integer with wraparound and writes the value modulo `2 ^ 32` as 4
big-endian bytes. -/
theorem decode_overflow_wraps (c0 c1 c2 c3 c4 d0 d1 d2 d3 d4 : Nat)
    (h0 : decodeCharValue c0 = some d0) (h1 : decodeCharValue c1 = some d1)
    (h2 : decodeCharValue c2 = some d2) (h3 : decodeCharValue c3 = some d3)
    (h4 : decodeCharValue c4 = some d4)
    (hover : 2 ^ 32 ≤ d0 * 85 ^ 4 + d1 * 85 ^ 3 + d2 * 85 ^ 2 + d3 * 85 + d4) :
    Decode [c0, c1, c2, c3, c4] =
      .ok (putUint32BigEndian
        ((d0 * 85 ^ 4 + d1 * 85 ^ 3 + d2 * 85 ^ 2 + d3 * 85 + d4) % 2 ^ 32)) := by
  have hcond : ¬(([c0, c1, c2, c3, c4] : List Nat).length ≠
      ([c0, c1, c2, c3, c4] : List Nat).length / 5 * 5) := by simp
  simp only [Decode, encodedChunkSize]
  rw [if_neg hcond]
  have hfold := foldl_mulAdd_mod [d0, d1, d2, d3, d4] 0 0 (2 ^ 32) (by simp)
  simp only [List.foldl_cons, List.foldl_nil] at hfold
  simp only [decodeChunks, decodeChunkGo, h0, h1, h2, h3, h4, codeSize]
  rw [hfold]
  have hplain : ((((0 * 85 + d0) * 85 + d1) * 85 + d2) * 85 + d3) * 85 + d4
      = d0 * 85 ^ 4 + d1 * 85 ^ 3 + d2 * 85 ^ 2 + d3 * 85 + d4 := by ring
  rw [hplain, List.append_nil]

/-- Witness for C10: five hash signs, the largest 5-digit base-85 value. -/
theorem decode_overflow_wraps_witness :
    Decode [35, 35, 35, 35, 35] =
      .ok (putUint32BigEndian
        ((84 * 85 ^ 4 + 84 * 85 ^ 3 + 84 * 85 ^ 2 + 84 * 85 + 84) % 2 ^ 32)) :=
  decode_overflow_wraps 35 35 35 35 35 84 84 84 84 84 rfl rfl rfl rfl rfl (by norm_num)

end Z85
